import Mathlib

/-!
Shallow embedding of the `ethcore` read client (khanghh/ethcore):
the block/receipt assembly helpers in `client/rpccall.go`, the block
value constructors in `types/block.go`, and the `RpcConnectionPool`
failover engine.  Network effects are modelled by explicit oracles
(a response per batch element) and every function additionally returns
the trace of batched calls it issued, so that call-shaping properties
(chunk sizes, batch element contents) are statable.
-/

namespace Ethcore

/-- Model of `common.Hash` (a 32-byte value) modelled as an opaque identifier. -/
abbrev Hash := Nat

/-- The error values the embedded code can produce or observe.
`endpointFault n` stands for an arbitrary transport/protocol error
returned by an endpoint (anything that is neither `ethereum.NotFound`
nor `rpc.ErrNoResult`). -/
inductive GoErr where
  | notFound
  | noResult
  | nullHeader (h : Hash)
  | wrongHeader (h : Hash)
  | nullReceipt (h : Hash)
  | receiptWrongBlock (tx blk : Hash)
  | allClientsBusy
  | noConnection
  | endpointFault (code : Nat)
  deriving DecidableEq, Repr

/-- The fields of `types.Header` the embedded code inspects: the
pre-computed block hash (field `Hash`). Other header fields are inert
payload for these claims and are represented by `number`. -/
structure Header where
  hash : Hash
  number : Nat
  deriving DecidableEq, Repr

/-- Model of `types.Transaction`: only its identity hash (accessor `Hash()`,
field `txData.Hash`) is inspected by the embedded code. -/
structure Transaction where
  hash : Hash
  deriving DecidableEq, Repr

/-- Model of `types.Receipt`: the fields inspected by `getBlockReceiptsByHashes`
(`BlockHash`, `TransactionHash`). -/
structure Receipt where
  blockHash : Hash
  transactionHash : Hash
  deriving DecidableEq, Repr

/-- Model of `types.Withdrawal` as inert payload. -/
abbrev Withdrawal := Nat

/-- Model of `types.Body`: full transactions plus full uncle headers. -/
structure Body where
  transactions : List Transaction
  uncles : List Header
  deriving DecidableEq, Repr

/-- Model of `types.compactBody`: transaction hashes plus uncle hashes. -/
structure CompactBody where
  transactions : List Hash
  uncles : List Hash
  deriving DecidableEq, Repr

/-- Model of `types.Block`.  The Go struct holds `body *Body` and
`compact *compactBody`; nil pointers are `none`. -/
structure Block where
  header : Header
  body : Option Body := none
  compact : Option CompactBody := none
  withdrawals : List Withdrawal := []
  deriving DecidableEq, Repr

/-- Model of `types.NewBlockWithHeader`: block with only the header set. -/
def NewBlockWithHeader (header : Header) : Block :=
  { header := header }

/-- Model of `Block.WithCompactBody`: builds a new block carrying a compact body
with copies of the two hash slices, and returns that new block. -/
def Block.WithCompactBody (b : Block) (transactions uncles : List Hash) : Block :=
  { header := b.header
    body := none
    compact := some { transactions := transactions, uncles := uncles }
    withdrawals := [] }

/-- Model of `Block.WithBody` as written in `types/block.go`: it constructs a
block whose body holds the given transactions and uncle headers and
whose compact body holds their hashes — and then returns the receiver
`b`, not the constructed block (`return b` on the last line). -/
def Block.WithBody (b : Block) (transactions : List Transaction) (uncles : List Header) : Block :=
  let _block : Block :=
    { header := b.header
      body := some { transactions := transactions, uncles := uncles }
      compact := some { transactions := transactions.map (fun tx => tx.hash)
                        uncles := uncles.map (fun uncle => uncle.hash) }
      withdrawals := [] }
  b

/-- Model of `Block.WithWithdrawals`: new block sharing header/body/compact, with
the withdrawal list copied when non-empty (a nil and an empty Go slice
are both the empty list here). -/
def Block.WithWithdrawals (b : Block) (withdrawals : List Withdrawal) : Block :=
  { header := b.header
    body := b.body
    compact := b.compact
    withdrawals := if withdrawals.length > 0 then withdrawals else [] }

/-! ### Hex encoding (`toBlockNumArg`, `hexutil.EncodeBig`) -/

/-- Big-endian base-16 digit extraction with explicit fuel (structural
recursion so that the kernel can evaluate it); `fuel ≥ n` makes the
fuel-exhaustion branch unreachable. -/
def toHexAux : Nat → Nat → List Char
  | _, 0 => []
  | 0, _ + 1 => []
  | fuel + 1, n + 1 => toHexAux fuel ((n + 1) / 16) ++ [Nat.digitChar ((n + 1) % 16)]

/-- Minimal big-endian base-16 digit list of a natural number
(`big.Int.Text(16)` for non-negative values): empty for `0`, otherwise
most-significant digit first with no leading zero. -/
def toHexDigits (n : Nat) : List Char := toHexAux n n

/-- Model of `hexutil.EncodeBig`: `"0x0"` for zero, `"0x" ++ digits` for
positive values, `"-0x" ++ digits` of the absolute value for negative
values. -/
def encodeBig (n : Int) : String :=
  if n = 0 then "0x0"
  else if 0 < n then "0x" ++ String.mk (toHexDigits n.toNat)
  else "-0x" ++ String.mk (toHexDigits (-n).toNat)

/-- Model of `hexutil.EncodeUint64`. -/
def encodeUint64 (n : Nat) : String :=
  if n = 0 then "0x0" else "0x" ++ String.mk (toHexDigits n)

/-- Model of `toBlockNumArg` from `client/rpccall.go`: a nil block number is
`"latest"`, the sentinel `-1` is `"pending"`, anything else is
hex-encoded with `hexutil.EncodeBig`. -/
def toBlockNumArg : Option Int → String
  | none => "latest"
  | some number => if number = -1 then "pending" else encodeBig number

/-- Numeric value of a big-endian hex digit list (to state minimality
and correctness of `toHexDigits`). -/
def hexDigitVal (c : Char) : Nat :=
  if c.isDigit then c.toNat - '0'.toNat else c.toNat - 'a'.toNat + 10

/-- Value of a big-endian digit list. -/
def hexValue (ds : List Char) : Nat :=
  ds.foldl (fun acc c => 16 * acc + hexDigitVal c) 0

/-! ### Uncle fetching (`getBlockUncles`) -/

/-- One `rpc.BatchElem` of the uncle batch: method name plus its two
arguments (the parent block hash and the hex-encoded uncle index). -/
structure UncleBatchElem where
  method : String
  argHash : Hash
  argIdx : String
  deriving DecidableEq, Repr

/-- What the remote node answers for an uncle batch element: the
per-element error (`elem.Error`) and the decoded header (`nil` ⇒
`none`). -/
structure UncleResp where
  err : Option GoErr
  header : Option Header
  deriving DecidableEq, Repr

/-- Oracle for the single uncle `BatchCall`: the transport-level error of
the whole call, and the per-index response. -/
structure UncleOracle where
  batchErr : Option GoErr
  resp : Nat → UncleResp

/-- The validation loop at the end of `getBlockUncles`: for each index in
order, a per-element error is returned first, then a `nil` header fails,
then a header whose own hash differs from the hash requested at that
position fails; otherwise the headers are collected in order. -/
def checkUncles : List (Hash × UncleResp) → Except GoErr (List Header)
  | [] => .ok []
  | (h, r) :: rest =>
    match r.err with
    | some e => .error e
    | none =>
      match r.header with
      | none => .error (.nullHeader h)
      | some hd =>
        if hd.hash ≠ h then .error (.wrongHeader h)
        else (checkUncles rest).map (fun hds => hd :: hds)

/-- Model of `getBlockUncles`: nothing to do for an empty hash list; otherwise one
batched call whose element `idx` invokes
`eth_getUncleByBlockHashAndIndex` with the parent block hash and the
hex-encoded index, followed by the validation loop.  The first component
is the trace of batched calls issued. -/
def getBlockUncles (o : UncleOracle) (blockHash : Hash) (hashes : List Hash) :
    List (List UncleBatchElem) × Except GoErr (List Header) :=
  if hashes.length = 0 then ([], .ok [])
  else
    let batch := (List.range hashes.length).map fun idx =>
      { method := "eth_getUncleByBlockHashAndIndex"
        argHash := blockHash
        argIdx := encodeUint64 idx : UncleBatchElem }
    match o.batchErr with
    | some e => ([batch], .error e)
    | none => ([batch], checkUncles (hashes.zip ((List.range hashes.length).map o.resp)))

/-! ### Block assembly (`getBlock`) -/

/-- The decoded envelope of `eth_getBlockByHash`/`eth_getBlockByNumber`:
the header, the uncle hashes (uncle headers are never embedded), and the
transaction list decoded either as full objects (full path) or as bare
hashes (compact path), plus the withdrawal list. -/
structure BlockEnvelope where
  header : Header
  uncles : List Hash
  transactions : List Transaction
  txHashes : List Hash
  withdrawals : List Withdrawal

/-- Oracle for one `getBlock` invocation: the error of the initial
`client.Call` (if any), the raw envelope (`none` for an empty payload),
and the oracle serving the trailing uncle batch. -/
structure GetBlockOracle where
  callErr : Option GoErr
  raw : Option BlockEnvelope
  uncleOracle : UncleOracle

/-- Model of `getBlock`: one call retrieves the envelope (an empty payload is
`ethereum.NotFound`); the full path fetches and validates uncle headers
through `getBlockUncles` and assembles the block with
`WithBody`/`WithWithdrawals`; the compact path assembles it with
`WithCompactBody`/`WithWithdrawals`.  The first component is the trace
of batched calls issued. -/
def getBlock (o : GetBlockOracle) (fullBlock : Bool) :
    List (List UncleBatchElem) × Except GoErr Block :=
  match o.callErr with
  | some e => ([], .error e)
  | none =>
    match o.raw with
    | none => ([], .error .notFound)
    | some resp =>
      let header := resp.header
      if fullBlock then
        match getBlockUncles o.uncleOracle header.hash resp.uncles with
        | (tr, .error e) => (tr, .error e)
        | (tr, .ok uncles) =>
          (tr, .ok (((NewBlockWithHeader header).WithBody resp.transactions uncles).WithWithdrawals
            resp.withdrawals))
      else
        ([], .ok (((NewBlockWithHeader header).WithCompactBody resp.txHashes resp.uncles).WithWithdrawals
          resp.withdrawals))

/-! ### Receipt batching (`batchGetTransactionReceipt`,
`getBlockReceiptsByHashes`) -/

/-- Model of `rpcRequestBatchSize` from the client package. -/
def rpcRequestBatchSize : Nat := 100

/-- One `rpc.BatchElem` of a receipt batch. -/
structure RcptBatchElem where
  method : String
  txHash : Hash
  deriving DecidableEq, Repr

/-- The response for one receipt batch element. -/
structure RcptResp where
  err : Option GoErr
  receipt : Option Receipt
  deriving DecidableEq, Repr

/-- Oracle for receipt batches: a transport-level error per issued batch
(keyed by the batch's hash list) and a per-transaction-hash response. -/
structure ReceiptOracle where
  batchErr : List Hash → Option GoErr
  resp : Hash → RcptResp

/-- The validation loop of `batchGetTransactionReceipt`: for each index
in order a per-element error is returned first, then a `nil` receipt
fails; otherwise the receipts are collected in order. -/
def collectReceipts : List (Hash × RcptResp) → Except GoErr (List Receipt)
  | [] => .ok []
  | (h, r) :: rest =>
    match r.err with
    | some e => .error e
    | none =>
      match r.receipt with
      | none => .error (.nullReceipt h)
      | some rc => (collectReceipts rest).map (fun rcs => rc :: rcs)

/-- Model of `batchGetTransactionReceipt`: an empty hash list yields the empty
(freshly made, non-nil) receipt slice with no RPC call; otherwise one
batched call with one `eth_getTransactionReceipt` element per hash,
followed by the validation loop. -/
def batchGetTransactionReceipt (o : ReceiptOracle) (txHashes : List Hash) :
    List (List RcptBatchElem) × Except GoErr (List Receipt) :=
  if txHashes.length = 0 then ([], .ok [])
  else
    let batch := txHashes.map fun h =>
      { method := "eth_getTransactionReceipt", txHash := h : RcptBatchElem }
    match o.batchErr txHashes with
    | some e => ([batch], .error e)
    | none => ([batch], collectReceipts (txHashes.map fun h => (h, o.resp h)))

/-- Chunk loop of `getBlockReceiptsByHashes`: the Go code iterates `i`
from `0` to `batchCount` slicing `txHashes[i*100 : min((i+1)*100, n)]`;
successive slices are exactly `take 100` followed by the loop on
`drop 100`.  A failing chunk aborts the loop; results are appended in
order.  The fuel argument (any value at least the list length) makes the
recursion structural so the kernel can evaluate it. -/
def receiptChunksLoop (o : ReceiptOracle) :
    Nat → List Hash → List (List RcptBatchElem) × Except GoErr (List Receipt)
  | _, [] => ([], .ok [])
  | 0, _ :: _ => ([], .ok [])
  | fuel + 1, tx :: txs =>
    match batchGetTransactionReceipt o ((tx :: txs).take rpcRequestBatchSize) with
    | (tr, .error e) => (tr, .error e)
    | (tr, .ok rcs) =>
      match receiptChunksLoop o fuel ((tx :: txs).drop rpcRequestBatchSize) with
      | (tr2, .error e) => (tr ++ tr2, .error e)
      | (tr2, .ok rest) => (tr ++ tr2, .ok (rcs ++ rest))

/-- Model of `getBlockReceiptsByHashes`: at most `rpcRequestBatchSize` hashes go
through a single `batchGetTransactionReceipt` (with no block-hash
check); longer lists are chunked, the chunk results concatenated, and
then the first receipt whose embedded block hash differs from the
requested one fails the whole operation. -/
def getBlockReceiptsByHashes (o : ReceiptOracle) (blockHash : Hash) (txHashes : List Hash) :
    List (List RcptBatchElem) × Except GoErr (List Receipt) :=
  if txHashes.length ≤ rpcRequestBatchSize then
    batchGetTransactionReceipt o txHashes
  else
    match receiptChunksLoop o txHashes.length txHashes with
    | (tr, .error e) => (tr, .error e)
    | (tr, .ok ret) =>
      match ret.find? (fun receipt => receipt.blockHash != blockHash) with
      | some receipt => (tr, .error (.receiptWrongBlock receipt.transactionHash blockHash))
      | none => (tr, .ok ret)

/-! ### The connection pool (`RpcConnectionPool.Call` / `BatchCall`)

One invocation against a fixed pool snapshot is sequential Go code: the
loop scans endpoints in order, a compare-and-swap on the availability
slot succeeds exactly when the slot currently reads free, and the
outcome of `client.Call`/`client.BatchCall` on each endpoint is an
oracle (`none` = success, `some e` = the returned error).  Each
endpoint is the pair `(busy, behavior)` of its slot value at scan time
and its call outcome.  The result records, per endpoint: whether this
invocation claimed the slot, the slot's value when the invocation
returns, and whether a cooldown goroutine was spawned for it — plus the
error value the invocation returns (`none` = nil). -/

/-- Per-endpoint outcome of one pool invocation. -/
structure SlotResult where
  claimed : Bool
  busy : Bool
  cooldownScheduled : Bool
  deriving DecidableEq, Repr

/-- The loop body of `RpcConnectionPool.Call` with the running `err`
variable (initially nil).  A busy slot is skipped; a successful call
stores 0 back into the slot and returns nil at once; a failed call
spawns `cooldown` only when the error is neither `ethereum.NotFound`
nor `rpc.ErrNoResult`, leaves the slot at 1, and continues scanning. -/
def poolCallLoop : List (Bool × Option GoErr) → Option GoErr →
    List SlotResult × Option GoErr
  | [], err => ([], err)
  | (busy, behavior) :: rest, err =>
    if busy then
      let (out, r) := poolCallLoop rest err
      ({ claimed := false, busy := true, cooldownScheduled := false } :: out, r)
    else
      match behavior with
      | none =>
        ({ claimed := true, busy := false, cooldownScheduled := false } ::
          rest.map (fun p => { claimed := false, busy := p.1, cooldownScheduled := false }),
          none)
      | some e =>
        let (out, r) := poolCallLoop rest (some e)
        ({ claimed := true, busy := true
           cooldownScheduled := e != GoErr.notFound && e != GoErr.noResult } :: out, r)

/-- Model of `RpcConnectionPool.Call` over the endpoint snapshot: the loop with
`err` starting at nil; after the loop the current `err` is returned. -/
def poolCall (endpoints : List (Bool × Option GoErr)) : List SlotResult × Option GoErr :=
  poolCallLoop endpoints none

/-- The loop body of `RpcConnectionPool.BatchCall`: as `Call`, except
that `allBusy` is cleared on the first claimed endpoint, a per-element
batch error counts as a call failure, and every failure (of any class)
spawns `cooldown`. -/
def poolBatchCallLoop : List (Bool × Option GoErr) → Option GoErr → Bool →
    List SlotResult × Option GoErr × Bool
  | [], err, allBusy => ([], err, allBusy)
  | (busy, behavior) :: rest, err, allBusy =>
    if busy then
      let (out, r, ab) := poolBatchCallLoop rest err allBusy
      ({ claimed := false, busy := true, cooldownScheduled := false } :: out, r, ab)
    else
      match behavior with
      | none =>
        ({ claimed := true, busy := false, cooldownScheduled := false } ::
          rest.map (fun p => { claimed := false, busy := p.1, cooldownScheduled := false }),
          none, false)
      | some e =>
        let (out, r, ab) := poolBatchCallLoop rest (some e) false
        ({ claimed := true, busy := true, cooldownScheduled := true } :: out, r, ab)

/-- Model of `RpcConnectionPool.BatchCall`: after the loop, `allBusy` still true
yields the dedicated "all clients are busy" error, else the current
`err` (a successful endpoint has already produced nil, with `allBusy`
false). -/
def poolBatchCall (endpoints : List (Bool × Option GoErr)) :
    List SlotResult × Option GoErr :=
  match poolBatchCallLoop endpoints none true with
  | (out, err, allBusy) => if allBusy then (out, some .allClientsBusy) else (out, err)

/-! ### Pool construction (`SetupConnectionPool`) -/

/-- An `ETHClient` as `SetupConnectionPool` sees it: its URL and the
round-trip latency measured once at connect. -/
structure EndpointClient where
  url : String
  latency : Nat
  deriving DecidableEq, Repr

/-- Insertion step of the latency sort (`sort.Slice` with
`clients[i].Latency() < clients[j].Latency()`; any sort producing a
`≤`-ordered permutation models it, and for pairwise-distinct latencies
they all agree). -/
def insertByLatency (c : EndpointClient) : List EndpointClient → List EndpointClient
  | [] => [c]
  | d :: rest =>
    if c.latency ≤ d.latency then c :: d :: rest else d :: insertByLatency c rest

/-- Latency-ascending sort of the surviving clients. -/
def sortByLatency : List EndpointClient → List EndpointClient
  | [] => []
  | c :: rest => insertByLatency c (sortByLatency rest)

/-- Model of `SetupConnectionPool`, with the dial phase as an oracle: each
candidate URL either fails to connect (`none`, silently dropped) or
yields a connected client (`some client`).  The input order stands for
the order in which the dial goroutines append survivors; the sorted
result does not depend on it for distinct latencies.  Zero survivors
fail construction with "no connection established". -/
def SetupConnectionPool (dialResults : List (Option EndpointClient)) :
    Except GoErr (List EndpointClient) :=
  let clients := dialResults.filterMap id
  if clients.length > 0 then .ok (sortByLatency clients)
  else .error .noConnection

/-! ### Specification-side helpers and concrete fixtures -/

/-- Partition of a list into consecutive chunks of `rpcRequestBatchSize`
(specification-side counterpart of the chunk loop). -/
def chunks100 {α : Type} : List α → List (List α)
  | [] => []
  | x :: xs => ((x :: xs).take rpcRequestBatchSize) :: chunks100 ((x :: xs).drop rpcRequestBatchSize)
termination_by l => l.length
decreasing_by simp [rpcRequestBatchSize]; omega

/-- Envelope of a full block with one transaction and no uncles. -/
def sampleEnvelope : BlockEnvelope :=
  { header := { hash := 10, number := 1 }
    uncles := []
    transactions := [{ hash := 5 }]
    txHashes := [5]
    withdrawals := [] }

/-- Oracle delivering `sampleEnvelope` with no errors. -/
def sampleGetBlockOracle : GetBlockOracle :=
  { callErr := none
    raw := some sampleEnvelope
    uncleOracle := { batchErr := none, resp := fun _ => { err := none, header := none } } }

/-- Receipt oracle whose receipts all carry block hash `2`. -/
def mismatchReceiptOracle : ReceiptOracle :=
  { batchErr := fun _ => none
    resp := fun h => { err := none, receipt := some { blockHash := 2, transactionHash := h } } }

/-- Uncle oracle answering index `idx` with a header whose hash is
`21 + idx`. -/
def sampleUncleOracle : UncleOracle :=
  { batchErr := none
    resp := fun idx => { err := none, header := some { hash := 21 + idx, number := 0 } } }

/-- Receipt oracle whose receipts all carry block hash `7`. -/
def okReceiptOracle : ReceiptOracle :=
  { batchErr := fun _ => none
    resp := fun h => { err := none, receipt := some { blockHash := 7, transactionHash := h } } }

/-- Input of 250 transaction hashes. -/
def hashes250 : List Hash := List.range 250

/-- The receipts `okReceiptOracle` serves for `hashes250`. -/
def receipts250 : List Receipt :=
  (List.range 250).map fun h => { blockHash := 7, transactionHash := h }

/-- Dial results used by the pool-construction witness. -/
def sampleDialResults : List (Option EndpointClient) :=
  [some { url := "b", latency := 30 }, none,
   some { url := "a", latency := 10 }, some { url := "c", latency := 20 }]

/-! ## Hex-encoding lemmas -/

theorem toHexAux_eq (n : Nat) : ∀ f g : Nat, n ≤ f → n ≤ g → toHexAux f n = toHexAux g n := by
  induction n using Nat.strong_induction_on with
  | _ n ih =>
    intro f g hf hg
    match n with
    | 0 => cases f <;> cases g <;> rfl
    | m + 1 =>
      obtain ⟨fp, rfl⟩ : ∃ fp, f = fp + 1 := ⟨f - 1, by omega⟩
      obtain ⟨gp, rfl⟩ : ∃ gp, g = gp + 1 := ⟨g - 1, by omega⟩
      show toHexAux fp ((m + 1) / 16) ++ _ = toHexAux gp ((m + 1) / 16) ++ _
      rw [ih ((m + 1) / 16) (by omega) fp gp (by omega) (by omega)]

theorem toHexDigits_succ (n : Nat) (h : 0 < n) :
    toHexDigits n = toHexDigits (n / 16) ++ [Nat.digitChar (n % 16)] := by
  obtain ⟨m, rfl⟩ : ∃ m, n = m + 1 := ⟨n - 1, by omega⟩
  show toHexAux m ((m + 1) / 16) ++ _ = _
  rw [toHexAux_eq ((m + 1) / 16) m ((m + 1) / 16) (by omega) (le_refl _)]
  rfl

theorem hexDigitVal_digitChar : ∀ m : Nat, m < 16 → hexDigitVal (Nat.digitChar m) = m := by
  decide

theorem hexValue_append (ds : List Char) (c : Char) :
    hexValue (ds ++ [c]) = 16 * hexValue ds + hexDigitVal c := by
  simp [hexValue, List.foldl_append]

theorem hexValue_toHexDigits (n : Nat) : hexValue (toHexDigits n) = n := by
  induction n using Nat.strong_induction_on with
  | _ n ih =>
    rcases Nat.eq_zero_or_pos n with h | h
    · subst h; rfl
    · rw [toHexDigits_succ n h, hexValue_append,
        ih (n / 16) (Nat.div_lt_self h (by omega)),
        hexDigitVal_digitChar _ (Nat.mod_lt n (by omega))]
      omega

theorem toHexDigits_head_ne_zero (n : Nat) :
    0 < n → ∃ c cs, toHexDigits n = c :: cs ∧ c ≠ '0' := by
  induction n using Nat.strong_induction_on with
  | _ n ih =>
    intro h
    rcases Nat.eq_zero_or_pos (n / 16) with h16 | h16
    · have hn16 : n < 16 := by omega
      refine ⟨Nat.digitChar (n % 16), [], ?_, ?_⟩
      · rw [toHexDigits_succ n h, h16]
        rfl
      · rw [Nat.mod_eq_of_lt hn16]
        have hd : ∀ k, k < 16 → 0 < k → Nat.digitChar k ≠ '0' := by decide
        exact hd n hn16 h
    · obtain ⟨c, cs, heq, hc⟩ := ih (n / 16) (Nat.div_lt_self h (by omega)) h16
      exact ⟨c, cs ++ [Nat.digitChar (n % 16)], by rw [toHexDigits_succ n h, heq]; rfl, hc⟩

/-! ## C9 -/

/-- **C9**: the wire encoding produced by `toBlockNumArg` is the literal
string "latest" when the number is absent (nil), the literal string
"pending" when the number equals the sentinel `-1`, and otherwise the
`hexutil.EncodeBig` encoding: `"0x0"` for zero and, for nonzero values,
a `0x`-prefixed (sign-prefixed when negative) big-endian hex digit
string that is minimal — its leading digit is nonzero — and whose value
is the magnitude of the number. -/
theorem toBlockNumArg_spec :
    toBlockNumArg none = "latest" ∧
    toBlockNumArg (some (-1)) = "pending" ∧
    (∀ n : Int, n ≠ -1 → toBlockNumArg (some n) = encodeBig n) ∧
    encodeBig 0 = "0x0" ∧
    (∀ n : Int, 0 < n → ∃ c cs, encodeBig n = "0x" ++ String.mk (c :: cs) ∧
      hexValue (c :: cs) = n.toNat ∧ c ≠ '0') ∧
    (∀ n : Int, n < 0 → ∃ c cs, encodeBig n = "-0x" ++ String.mk (c :: cs) ∧
      hexValue (c :: cs) = (-n).toNat ∧ c ≠ '0') := by
  refine ⟨rfl, rfl, ?_, rfl, ?_, ?_⟩
  · intro n hn
    simp [toBlockNumArg, hn]
  · intro n hpos
    obtain ⟨c, cs, heq, hc⟩ := toHexDigits_head_ne_zero n.toNat (by omega)
    refine ⟨c, cs, ?_, ?_, hc⟩
    · rw [encodeBig, if_neg (by omega), if_pos hpos, heq]
    · rw [← heq, hexValue_toHexDigits]
  · intro n hneg
    obtain ⟨c, cs, heq, hc⟩ := toHexDigits_head_ne_zero (-n).toNat (by omega)
    refine ⟨c, cs, ?_, ?_, hc⟩
    · rw [encodeBig, if_neg (by omega), if_neg (by omega), heq]
    · rw [← heq, hexValue_toHexDigits]

/-- Witness for C9 at the concrete input `255`. -/
theorem toBlockNumArg_spec_witness :
    ((255 : Int) ≠ -1 ∧ toBlockNumArg (some 255) = encodeBig 255) ∧
    ((0 : Int) < 255 ∧ ∃ c cs, encodeBig 255 = "0x" ++ String.mk (c :: cs) ∧
      hexValue (c :: cs) = (255 : Int).toNat ∧ c ≠ '0') :=
  ⟨⟨by decide, toBlockNumArg_spec.2.2.1 255 (by decide)⟩,
   ⟨by decide, toBlockNumArg_spec.2.2.2.2.1 255 (by decide)⟩⟩

/-! ## C10 -/

/-- **C10**: for an empty transaction-hash list,
`getBlockReceiptsByHashes` (which delegates to
`batchGetTransactionReceipt`) returns the length-zero receipt list —
the Go code returns the freshly allocated `make(types.Receipts, 0)`,
which is non-nil — together with a nil error, and the trace of issued
batched RPC calls is empty. -/
theorem batchGetTransactionReceipt_empty (o : ReceiptOracle) (blockHash : Hash) :
    batchGetTransactionReceipt o [] = ([], .ok []) ∧
    getBlockReceiptsByHashes o blockHash [] = ([], .ok []) :=
  ⟨rfl, rfl⟩

/-- Witness for C10 at a concrete oracle and block hash. -/
theorem batchGetTransactionReceipt_empty_witness :
    batchGetTransactionReceipt okReceiptOracle [] = ([], .ok []) ∧
    getBlockReceiptsByHashes okReceiptOracle 7 [] = ([], .ok []) :=
  batchGetTransactionReceipt_empty okReceiptOracle 7

/-! ## C1 -/

/-- **C1** fails on the code: `Block.WithBody` returns its receiver
instead of the block it populates, so a successful full-body `getBlock`
produces a block with `body = none` and `compact = none` — neither
compact nor hydrated.  Evaluation at a block envelope holding one
transaction and no uncles. -/
theorem getBlock_full_returns_bodiless_block :
    getBlock sampleGetBlockOracle true =
      ([], .ok { header := { hash := 10, number := 1 }, body := none, compact := none,
                 withdrawals := [] }) := by
  rfl

/-! ## C2 -/

/-- **C2** fails on the code: a list of at most 100 transaction hashes
takes the single-batch path of `getBlockReceiptsByHashes`, which never
compares the receipts' embedded block hash with the requested one.
Requesting block hash `1` while every receipt carries block hash `2`
succeeds for one hash, although the identical data makes the chunked
path (101 hashes) fail. -/
theorem getBlockReceiptsByHashes_small_skips_blockhash_check :
    (getBlockReceiptsByHashes mismatchReceiptOracle 1 [5]).2 =
      .ok [{ blockHash := 2, transactionHash := 5 }] ∧
    (getBlockReceiptsByHashes mismatchReceiptOracle 1 (List.range 101)).2 =
      .error (.receiptWrongBlock 0 1) := by
  exact ⟨rfl, rfl⟩

/-! ## C3 -/

/-- **C3** fails on the code for `Call`: when every availability slot is
busy, `RpcConnectionPool.Call` falls through its loop with the `err`
variable still nil and returns nil — not the dedicated "all busy" error
that `BatchCall` returns in the same situation. -/
theorem poolCall_allBusy_returns_nil :
    (poolCall [(true, some (GoErr.endpointFault 0))]).2 = none ∧
    (poolBatchCall [(true, some (GoErr.endpointFault 0))]).2 = some GoErr.allClientsBusy :=
  ⟨rfl, rfl⟩

/-! ## C5 -/

/-- **C5** fails on the code: an endpoint claimed by `Call` that returns
`ethereum.NotFound` is neither reset to free nor handed to a cooldown
task — the slot stays busy forever.  Evaluation on a one-endpoint pool
whose endpoint answers NotFound. -/
theorem poolCall_notFound_leaks_claim :
    poolCall [(false, some GoErr.notFound)] =
      ([{ claimed := true, busy := true, cooldownScheduled := false }],
        some GoErr.notFound) := by
  rfl

/-! ## C4 -/

/-- Counterexample to C4 as stated: with two free endpoints where the
first returns NotFound, `Call` claims the second endpoint as well
(`claimed = true` in slot 1) and, because the second succeeds, returns
nil — the NotFound error is not returned to the caller at all. -/
theorem poolCall_notFound_failover_counterexample :
    (poolCall [(false, some GoErr.notFound), (false, none)]).2 = none ∧
    (poolCall [(false, some GoErr.notFound), (false, none)]).1 =
      [{ claimed := true, busy := true, cooldownScheduled := false },
       { claimed := true, busy := false, cooldownScheduled := false }] :=
  ⟨rfl, rfl⟩

theorem poolCallLoop_busy_out (beh : Option GoErr) (tail : List (Bool × Option GoErr))
    (err0 : Option GoErr) :
    (poolCallLoop ((true, beh) :: tail) err0).1 =
      { claimed := false, busy := true, cooldownScheduled := false } ::
        (poolCallLoop tail err0).1 := rfl

theorem poolCallLoop_busy_res (beh : Option GoErr) (tail : List (Bool × Option GoErr))
    (err0 : Option GoErr) :
    (poolCallLoop ((true, beh) :: tail) err0).2 = (poolCallLoop tail err0).2 := rfl

theorem poolCallLoop_hit_out (tail : List (Bool × Option GoErr)) (err0 : Option GoErr) :
    (poolCallLoop ((false, none) :: tail) err0).1 =
      { claimed := true, busy := false, cooldownScheduled := false } ::
        tail.map (fun p => { claimed := false, busy := p.1, cooldownScheduled := false }) := rfl

theorem poolCallLoop_hit_res (tail : List (Bool × Option GoErr)) (err0 : Option GoErr) :
    (poolCallLoop ((false, none) :: tail) err0).2 = none := rfl

theorem poolCallLoop_fault_out (e : GoErr) (tail : List (Bool × Option GoErr))
    (err0 : Option GoErr) :
    (poolCallLoop ((false, some e) :: tail) err0).1 =
      { claimed := true, busy := true,
        cooldownScheduled := e != GoErr.notFound && e != GoErr.noResult } ::
        (poolCallLoop tail (some e)).1 := rfl

theorem poolCallLoop_fault_res (e : GoErr) (tail : List (Bool × Option GoErr))
    (err0 : Option GoErr) :
    (poolCallLoop ((false, some e) :: tail) err0).2 = (poolCallLoop tail (some e)).2 := rfl

theorem poolCallLoop_cooldown_only_faults (eps : List (Bool × Option GoErr)) :
    ∀ (err0 : Option GoErr) (i : Nat) (b : Bool) (e : GoErr),
      eps[i]? = some (b, some e) → (e = GoErr.notFound ∨ e = GoErr.noResult) →
      ∀ si, ((poolCallLoop eps err0).1)[i]? = some si → si.cooldownScheduled = false := by
  induction eps with
  | nil => intro err0 i b e h; simp at h
  | cons head tail ih =>
    intro err0 i b e hget hcls si hout
    obtain ⟨hb, beh⟩ := head
    cases hb with
    | true =>
      rw [poolCallLoop_busy_out] at hout
      cases i with
      | zero =>
        rw [List.getElem?_cons_zero, Option.some.injEq] at hout
        rw [← hout]
      | succ i =>
        rw [List.getElem?_cons_succ] at hget
        rw [List.getElem?_cons_succ] at hout
        exact ih err0 i b e hget hcls si hout
    | false =>
      cases beh with
      | none =>
        cases i with
        | zero =>
          rw [List.getElem?_cons_zero, Option.some.injEq, Prod.mk.injEq] at hget
          exact Option.noConfusion hget.2
        | succ i =>
          rw [poolCallLoop_hit_out, List.getElem?_cons_succ, List.getElem?_map] at hout
          cases hp : tail[i]? with
          | none => rw [hp] at hout; simp at hout
          | some p =>
            rw [hp] at hout
            have h2 : SlotResult.mk false p.1 false = si := Option.some.inj hout
            rw [← h2]
      | some e1 =>
        cases i with
        | zero =>
          rw [List.getElem?_cons_zero, Option.some.injEq, Prod.mk.injEq] at hget
          obtain ⟨-, hget2⟩ := hget
          rw [Option.some.injEq] at hget2
          rw [poolCallLoop_fault_out, List.getElem?_cons_zero, Option.some.injEq] at hout
          rw [← hout]
          rcases hcls with h | h <;> simp [hget2, h]
        | succ i =>
          rw [List.getElem?_cons_succ] at hget
          rw [poolCallLoop_fault_out, List.getElem?_cons_succ] at hout
          exact ih (some e1) i b e hget hcls si hout

theorem poolCallLoop_success_returns_nil (eps : List (Bool × Option GoErr)) :
    ∀ (err0 : Option GoErr) (i : Nat) (si : SlotResult),
      ((poolCallLoop eps err0).1)[i]? = some si → si.claimed = true → si.busy = false →
      (poolCallLoop eps err0).2 = none := by
  induction eps with
  | nil => intro err0 i si h; simp [poolCallLoop] at h
  | cons head tail ih =>
    intro err0 i si hout hcl hbusy
    obtain ⟨hb, beh⟩ := head
    cases hb with
    | true =>
      rw [poolCallLoop_busy_out] at hout
      rw [poolCallLoop_busy_res]
      cases i with
      | zero =>
        rw [List.getElem?_cons_zero, Option.some.injEq] at hout
        rw [← hout] at hcl
        simp at hcl
      | succ i =>
        rw [List.getElem?_cons_succ] at hout
        exact ih err0 i si hout hcl hbusy
    | false =>
      cases beh with
      | none => exact poolCallLoop_hit_res tail err0
      | some e1 =>
        rw [poolCallLoop_fault_out] at hout
        rw [poolCallLoop_fault_res]
        cases i with
        | zero =>
          rw [List.getElem?_cons_zero, Option.some.injEq] at hout
          rw [← hout] at hbusy
          simp at hbusy
        | succ i =>
          rw [List.getElem?_cons_succ] at hout
          exact ih (some e1) i si hout hcl hbusy

/-- **C4** (amended): whenever an endpoint claimed by
`RpcConnectionPool.Call` returns a NotFound or NoResult error, no
cooldown is scheduled for that endpoint — but `Call` does not return
the error immediately: it keeps scanning further endpoints, and when a
later endpoint is claimed and succeeds, `Call` returns nil rather than
the NotFound/NoResult error. -/
theorem poolCall_notFound_noCooldown_keeps_scanning (endpoints : List (Bool × Option GoErr)) :
    (∀ (i : Nat) (b : Bool) (e : GoErr), endpoints[i]? = some (b, some e) →
      (e = GoErr.notFound ∨ e = GoErr.noResult) →
      ∀ si : SlotResult, ((poolCall endpoints).1)[i]? = some si →
        si.cooldownScheduled = false) ∧
    (∀ (i : Nat) (si : SlotResult), ((poolCall endpoints).1)[i]? = some si →
      si.claimed = true → si.busy = false → (poolCall endpoints).2 = none) := by
  refine ⟨?_, ?_⟩
  · intro i b e h1 h2 si h3
    exact poolCallLoop_cooldown_only_faults endpoints none i b e h1 h2 si h3
  · intro i si h1 h2 h3
    exact poolCallLoop_success_returns_nil endpoints none i si h1 h2 h3

/-- Witness for the amended C4 on a two-endpoint pool whose first
endpoint answers NotFound and whose second succeeds. -/
theorem poolCall_notFound_noCooldown_keeps_scanning_witness :
    (poolCall [(false, some GoErr.notFound), (false, none)]).2 = none ∧
    (((poolCall [(false, some GoErr.notFound), (false, none)]).1)[0]?).map
      SlotResult.cooldownScheduled = some false := by
  constructor
  · exact (poolCall_notFound_noCooldown_keeps_scanning
      [(false, some GoErr.notFound), (false, none)]).2 1
      { claimed := true, busy := false, cooldownScheduled := false } (by decide) rfl rfl
  · rw [show ((poolCall [(false, some GoErr.notFound), (false, none)]).1)[0]? =
        some { claimed := true, busy := true, cooldownScheduled := false } from by decide]
    exact congrArg some ((poolCall_notFound_noCooldown_keeps_scanning
      [(false, some GoErr.notFound), (false, none)]).1 0 false
      GoErr.notFound (by decide) (Or.inl rfl)
      { claimed := true, busy := true, cooldownScheduled := false } (by decide))

/-! ## C6 -/

theorem checkUncles_ok :
    ∀ (l : List (Hash × UncleResp)) (hds : List Header), checkUncles l = .ok hds →
      hds.length = l.length ∧
      ∀ (i : Nat) (p : Hash × UncleResp), l[i]? = some p →
        ∃ hd, p.2.header = some hd ∧ hd.hash = p.1 ∧ hds[i]? = some hd := by
  intro l
  induction l with
  | nil =>
    intro hds h
    simp only [checkUncles] at h
    injection h with h
    subst h
    exact ⟨rfl, by intro i p hp; simp at hp⟩
  | cons q rest ih =>
    intro hds h
    obtain ⟨h1, r⟩ := q
    simp only [checkUncles] at h
    split at h
    · exact Except.noConfusion h
    · split at h
      · exact Except.noConfusion h
      · next hd hh =>
        split at h
        · exact Except.noConfusion h
        · next hcond =>
          have hne : hd.hash = h1 := not_not.mp hcond
          cases hr : checkUncles rest with
          | error e =>
            rw [hr] at h
            simp [Except.map] at h
          | ok tl =>
            rw [hr] at h
            simp only [Except.map, Except.ok.injEq] at h
            subst h
            obtain ⟨hlen, hall⟩ := ih tl hr
            refine ⟨by simp [hlen], ?_⟩
            intro i p hp
            cases i with
            | zero =>
              rw [List.getElem?_cons_zero, Option.some.injEq] at hp
              subst hp
              exact ⟨hd, hh, hne, by rw [List.getElem?_cons_zero]⟩
            | succ i =>
              rw [List.getElem?_cons_succ] at hp
              obtain ⟨hd2, a, b2, c⟩ := hall i p hp
              exact ⟨hd2, a, b2, by rw [List.getElem?_cons_succ]; exact c⟩

/-- **C6**: for a full-path assembly whose envelope lists `n ≥ 1` uncle
hashes, `getBlockUncles` issues exactly one batched call with exactly
`n` elements, element `idx` calling `eth_getUncleByBlockHashAndIndex`
keyed by the block hash and the hex-encoded index; a successful result
has every returned header present with the hash requested at its
position, any null or mismatched header makes the fetch fail, and a
failing fetch makes the whole `getBlock` assembly return the error (no
Block). -/
theorem getBlockUncles_single_batch_validated
    (o : UncleOracle) (blockHash : Hash) (hashes : List Hash) (hne : hashes ≠ []) :
    ((getBlockUncles o blockHash hashes).1).length = 1 ∧
    (∀ batch, batch ∈ (getBlockUncles o blockHash hashes).1 →
      batch.length = hashes.length ∧
      ∀ idx : Nat, idx < hashes.length →
        batch[idx]? = some { method := "eth_getUncleByBlockHashAndIndex"
                             argHash := blockHash, argIdx := encodeUint64 idx }) ∧
    (∀ uncles, (getBlockUncles o blockHash hashes).2 = .ok uncles →
      uncles.length = hashes.length ∧
      ∀ idx : Nat, idx < hashes.length →
        ∃ hd, (o.resp idx).header = some hd ∧ uncles[idx]? = some hd ∧
          hashes[idx]? = some hd.hash) ∧
    (∀ idx : Nat, idx < hashes.length →
      ((o.resp idx).header = none ∨
        (∃ hd, (o.resp idx).header = some hd ∧ hashes[idx]? ≠ some hd.hash)) →
      ∃ e, (getBlockUncles o blockHash hashes).2 = .error e) ∧
    (∀ (env : BlockEnvelope) (e : GoErr),
      (getBlockUncles o env.header.hash env.uncles).2 = .error e →
      (getBlock { callErr := none, raw := some env, uncleOracle := o } true).2 = .error e) := by
  have hlen0 : ¬(hashes.length = 0) := fun h => hne (List.length_eq_zero.mp h)
  have htr : (getBlockUncles o blockHash hashes).1 =
      [(List.range hashes.length).map fun idx =>
        { method := "eth_getUncleByBlockHashAndIndex"
          argHash := blockHash, argIdx := encodeUint64 idx : UncleBatchElem }] := by
    simp only [getBlockUncles, if_neg hlen0]
    cases h1 : o.batchErr <;> simp
  have hresOk : ∀ uncles, (getBlockUncles o blockHash hashes).2 = .ok uncles →
      checkUncles (hashes.zip ((List.range hashes.length).map o.resp)) = .ok uncles := by
    intro uncles hok
    cases h1 : o.batchErr with
    | some e =>
      rw [show (getBlockUncles o blockHash hashes).2 = .error e from by
        simp only [getBlockUncles, if_neg hlen0, h1]] at hok
      exact Except.noConfusion hok
    | none =>
      rw [show (getBlockUncles o blockHash hashes).2 =
          checkUncles (hashes.zip ((List.range hashes.length).map o.resp)) from by
        simp only [getBlockUncles, if_neg hlen0, h1]] at hok
      exact hok
  have hC : ∀ uncles, (getBlockUncles o blockHash hashes).2 = .ok uncles →
      uncles.length = hashes.length ∧
      ∀ idx : Nat, idx < hashes.length →
        ∃ hd, (o.resp idx).header = some hd ∧ uncles[idx]? = some hd ∧
          hashes[idx]? = some hd.hash := by
    intro uncles hok
    obtain ⟨hlen, hall⟩ := checkUncles_ok _ uncles (hresOk uncles hok)
    have hziplen : (hashes.zip ((List.range hashes.length).map o.resp)).length =
        hashes.length := by simp
    refine ⟨by rw [hlen, hziplen], ?_⟩
    intro idx hidx
    have hzip : (hashes.zip ((List.range hashes.length).map o.resp))[idx]? =
        some (hashes[idx], o.resp idx) := by
      refine List.getElem?_zip_eq_some.mpr ⟨List.getElem?_eq_getElem hidx, ?_⟩
      rw [List.getElem?_map, List.getElem?_range hidx]
      rfl
    obtain ⟨hd, hheader, hhash, huncle⟩ := hall idx _ hzip
    exact ⟨hd, hheader, huncle, by
      rw [List.getElem?_eq_getElem hidx]
      exact congrArg some hhash.symm⟩
  refine ⟨by rw [htr]; rfl, ?_, hC, ?_, ?_⟩
  · intro batch hmem
    rw [htr, List.mem_singleton] at hmem
    subst hmem
    refine ⟨by simp, ?_⟩
    intro idx hidx
    rw [List.getElem?_map, List.getElem?_range hidx]
    rfl
  · intro idx hidx hviol
    cases hres2 : (getBlockUncles o blockHash hashes).2 with
    | error e => exact ⟨e, rfl⟩
    | ok uncles =>
      exfalso
      obtain ⟨hd, hh, -, hhash⟩ := (hC uncles hres2).2 idx hidx
      rcases hviol with h | ⟨hd2, hh2, hne2⟩
      · rw [h] at hh
        exact Option.noConfusion hh
      · rw [hh2] at hh
        have heq : hd2 = hd := Option.some.inj hh
        subst heq
        exact hne2 hhash
  · intro env e h
    rcases hu : getBlockUncles o env.header.hash env.uncles with ⟨tr, res⟩
    rw [hu] at h
    simp only at h
    subst h
    simp [getBlock, hu]

/-- Witness for C6 on a two-uncle envelope whose oracle answers with
matching headers. -/
theorem getBlockUncles_single_batch_validated_witness :
    (([21, 22] : List Hash) ≠ []) ∧
    ((getBlockUncles sampleUncleOracle 9 [21, 22]).1).length = 1 ∧
    (getBlockUncles sampleUncleOracle 9 [21, 22]).2 =
      .ok [{ hash := 21, number := 0 }, { hash := 22, number := 0 }] :=
  ⟨by decide,
   (getBlockUncles_single_batch_validated sampleUncleOracle 9 [21, 22] (by decide)).1,
   by rfl⟩

/-! ## C7 -/

theorem collectReceipts_ok :
    ∀ (l : List (Hash × RcptResp)) (rs : List Receipt), collectReceipts l = .ok rs →
      rs.map some = l.map fun p => p.2.receipt := by
  intro l
  induction l with
  | nil =>
    intro rs h
    simp only [collectReceipts] at h
    injection h with h
    subst h
    rfl
  | cons q rest ih =>
    intro rs h
    obtain ⟨h1, r⟩ := q
    simp only [collectReceipts] at h
    split at h
    · exact Except.noConfusion h
    · split at h
      · exact Except.noConfusion h
      · next rc hrc =>
        cases hr : collectReceipts rest with
        | error e => rw [hr] at h; simp [Except.map] at h
        | ok tl =>
          rw [hr] at h
          simp only [Except.map, Except.ok.injEq] at h
          subst h
          simp only [List.map_cons, ih tl hr, hrc]

theorem batchGetTransactionReceipt_trace (o : ReceiptOracle) (txs : List Hash) :
    (batchGetTransactionReceipt o txs).1 =
      if txs.length = 0 then []
      else [txs.map fun hh => { method := "eth_getTransactionReceipt", txHash := hh }] := by
  by_cases h0 : txs.length = 0
  · simp [batchGetTransactionReceipt, h0]
  · simp only [batchGetTransactionReceipt, if_neg h0]
    cases h1 : o.batchErr txs <;> simp [h1]

theorem batchGetTransactionReceipt_ok (o : ReceiptOracle) (txs : List Hash)
    (rs : List Receipt) (h : (batchGetTransactionReceipt o txs).2 = .ok rs) :
    rs.map some = txs.map fun hh => (o.resp hh).receipt := by
  by_cases h0 : txs.length = 0
  · have hnil : txs = [] := List.length_eq_zero.mp h0
    subst hnil
    have h' : Except.ok (ε := GoErr) ([] : List Receipt) = Except.ok rs := h
    injection h' with h'
    subst h'
    rfl
  · simp only [batchGetTransactionReceipt, if_neg h0] at h
    cases h1 : o.batchErr txs with
    | some e =>
      rw [h1] at h
      exact Except.noConfusion h
    | none =>
      rw [h1] at h
      have h' : collectReceipts (txs.map fun hh => (hh, o.resp hh)) = .ok rs := h
      rw [collectReceipts_ok _ rs h', List.map_map]
      rfl

theorem receiptChunksLoop_ok (o : ReceiptOracle) :
    ∀ (fuel : Nat) (txs : List Hash), txs.length ≤ fuel →
      ∀ rs : List Receipt, (receiptChunksLoop o fuel txs).2 = .ok rs →
        (receiptChunksLoop o fuel txs).1 =
          (chunks100 txs).map (fun chunk =>
            chunk.map fun hh => { method := "eth_getTransactionReceipt", txHash := hh }) ∧
        rs.map some = txs.map fun hh => (o.resp hh).receipt := by
  intro fuel
  induction fuel with
  | zero =>
    intro txs hf rs h
    have hnil : txs = [] := List.length_eq_zero.mp (Nat.le_zero.mp hf)
    subst hnil
    simp only [receiptChunksLoop] at h
    injection h with h
    subst h
    exact ⟨by simp [chunks100, receiptChunksLoop], rfl⟩
  | succ fuel ih =>
    intro txs hf rs h
    cases txs with
    | nil =>
      simp only [receiptChunksLoop] at h
      injection h with h
      subst h
      exact ⟨by simp [chunks100, receiptChunksLoop], rfl⟩
    | cons tx rest =>
      rcases hbatch : batchGetTransactionReceipt o ((tx :: rest).take rpcRequestBatchSize)
        with ⟨tr, res⟩
      cases res with
      | error e =>
        rw [show (receiptChunksLoop o (fuel + 1) (tx :: rest)).2 = .error e from by
          simp only [receiptChunksLoop, hbatch]] at h
        exact Except.noConfusion h
      | ok rcs =>
        rcases hloop : receiptChunksLoop o fuel ((tx :: rest).drop rpcRequestBatchSize)
          with ⟨tr2, res2⟩
        cases res2 with
        | error e =>
          rw [show (receiptChunksLoop o (fuel + 1) (tx :: rest)).2 = .error e from by
            simp only [receiptChunksLoop, hbatch, hloop]] at h
          exact Except.noConfusion h
        | ok rest2 =>
          have hres : receiptChunksLoop o (fuel + 1) (tx :: rest) =
              (tr ++ tr2, .ok (rcs ++ rest2)) := by
            simp only [receiptChunksLoop, hbatch, hloop]
          rw [hres] at h
          have h' : Except.ok (ε := GoErr) (rcs ++ rest2) = Except.ok rs := h
          injection h' with h'
          subst h'
          have hlen : ((tx :: rest).drop rpcRequestBatchSize).length ≤ fuel := by
            simp only [List.length_drop, List.length_cons] at hf ⊢
            simp only [rpcRequestBatchSize]
            omega
          obtain ⟨htr2, hval2⟩ := ih _ hlen rest2 (by rw [hloop])
          have htake_ne : ¬(((tx :: rest).take rpcRequestBatchSize).length = 0) := by
            simp [rpcRequestBatchSize]
          have htr1 : tr = [((tx :: rest).take rpcRequestBatchSize).map
              fun hh => { method := "eth_getTransactionReceipt", txHash := hh }] := by
            have hx := batchGetTransactionReceipt_trace o ((tx :: rest).take rpcRequestBatchSize)
            rw [hbatch, if_neg htake_ne] at hx
            exact hx
          have hval1 : rcs.map some = ((tx :: rest).take rpcRequestBatchSize).map
              fun hh => (o.resp hh).receipt :=
            batchGetTransactionReceipt_ok o _ rcs (by rw [hbatch])
          constructor
          · rw [hres,
              show chunks100 (tx :: rest) = (tx :: rest).take rpcRequestBatchSize ::
                chunks100 ((tx :: rest).drop rpcRequestBatchSize) from by simp [chunks100]]
            simp only [List.map_cons]
            rw [← htr2]
            simp [htr1, hloop]
          · calc (rcs ++ rest2).map some
                = rcs.map some ++ rest2.map some := by rw [List.map_append]
              _ = ((tx :: rest).take rpcRequestBatchSize).map (fun hh => (o.resp hh).receipt) ++
                  ((tx :: rest).drop rpcRequestBatchSize).map
                    (fun hh => (o.resp hh).receipt) := by rw [hval1, hval2]
              _ = ((tx :: rest).take rpcRequestBatchSize ++
                  (tx :: rest).drop rpcRequestBatchSize).map
                    (fun hh => (o.resp hh).receipt) := by rw [List.map_append]
              _ = (tx :: rest).map (fun hh => (o.resp hh).receipt) := by
                    rw [List.take_append_drop]

theorem chunks100_flatten {α : Type} :
    ∀ (n : Nat) (l : List α), l.length ≤ n → (chunks100 l).flatten = l := by
  intro n
  induction n with
  | zero =>
    intro l hlen
    have hnil : l = [] := List.length_eq_zero.mp (Nat.le_zero.mp hlen)
    subst hnil
    simp [chunks100]
  | succ n ih =>
    intro l hlen
    cases l with
    | nil => simp [chunks100]
    | cons x xs =>
      rw [show chunks100 (x :: xs) = (x :: xs).take rpcRequestBatchSize ::
          chunks100 ((x :: xs).drop rpcRequestBatchSize) from by simp [chunks100]]
      rw [List.flatten_cons, ih _ (by simp only [List.length_drop, List.length_cons, rpcRequestBatchSize] at hlen ⊢; omega),
        List.take_append_drop]

theorem chunks100_length {α : Type} :
    ∀ (n : Nat) (l : List α), l.length ≤ n →
      (chunks100 l).length = (l.length + rpcRequestBatchSize - 1) / rpcRequestBatchSize := by
  intro n
  induction n with
  | zero =>
    intro l hlen
    have hnil : l = [] := List.length_eq_zero.mp (Nat.le_zero.mp hlen)
    subst hnil
    simp [chunks100, rpcRequestBatchSize]
  | succ n ih =>
    intro l hlen
    cases l with
    | nil => simp [chunks100, rpcRequestBatchSize]
    | cons x xs =>
      rw [show chunks100 (x :: xs) = (x :: xs).take rpcRequestBatchSize ::
          chunks100 ((x :: xs).drop rpcRequestBatchSize) from by simp [chunks100]]
      rw [List.length_cons, ih _ (by simp only [List.length_drop, List.length_cons, rpcRequestBatchSize] at hlen ⊢; omega)]
      simp only [List.length_drop, List.length_cons, rpcRequestBatchSize]
      omega

theorem chunks100_mem {α : Type} :
    ∀ (n : Nat) (l : List α), l.length ≤ n →
      ∀ chunk ∈ chunks100 l, 0 < chunk.length ∧ chunk.length ≤ rpcRequestBatchSize := by
  intro n
  induction n with
  | zero =>
    intro l hlen chunk hc
    have hnil : l = [] := List.length_eq_zero.mp (Nat.le_zero.mp hlen)
    subst hnil
    simp [chunks100] at hc
  | succ n ih =>
    intro l hlen chunk hc
    cases l with
    | nil => simp [chunks100] at hc
    | cons x xs =>
      rw [show chunks100 (x :: xs) = (x :: xs).take rpcRequestBatchSize ::
          chunks100 ((x :: xs).drop rpcRequestBatchSize) from by simp [chunks100]] at hc
      rcases List.mem_cons.mp hc with hc1 | hc2
      · subst hc1
        simp only [List.length_take, List.length_cons, rpcRequestBatchSize]
        omega
      · exact ih _ (by simp only [List.length_drop, List.length_cons, rpcRequestBatchSize] at hlen ⊢; omega) chunk hc2

theorem chunks100_of_short (l : List Hash) (hne : l ≠ [])
    (hlen : l.length ≤ rpcRequestBatchSize) : chunks100 l = [l] := by
  cases l with
  | nil => exact absurd rfl hne
  | cons x xs =>
    rw [show chunks100 (x :: xs) = (x :: xs).take rpcRequestBatchSize ::
        chunks100 ((x :: xs).drop rpcRequestBatchSize) from by simp [chunks100]]
    rw [List.take_of_length_le hlen, List.drop_eq_nil_of_le hlen]
    simp [chunks100]

/-- **C7**: `getBlockReceiptsByHashes` partitions the hash list into
`ceil(n / 100)` consecutive chunks of at most 100 hashes covering the
input, issues one batched call per chunk with one
`eth_getTransactionReceipt` element per hash, and — on success — returns
receipts aligned with the input hashes in order (the receipt at position
`i` is the oracle's receipt for hash `i`); a null receipt for any
requested hash prevents success. -/
theorem getBlockReceiptsByHashes_chunking
    (o : ReceiptOracle) (blockHash : Hash) (txHashes : List Hash) :
    ((chunks100 txHashes).flatten = txHashes ∧
      (∀ chunk ∈ chunks100 txHashes, 0 < chunk.length ∧
        chunk.length ≤ rpcRequestBatchSize) ∧
      (chunks100 txHashes).length =
        (txHashes.length + rpcRequestBatchSize - 1) / rpcRequestBatchSize) ∧
    (∀ rs : List Receipt, (getBlockReceiptsByHashes o blockHash txHashes).2 = .ok rs →
      (getBlockReceiptsByHashes o blockHash txHashes).1 =
        (chunks100 txHashes).map (fun chunk =>
          chunk.map fun hh => { method := "eth_getTransactionReceipt", txHash := hh }) ∧
      rs.map some = txHashes.map fun hh => (o.resp hh).receipt) ∧
    (∀ hh ∈ txHashes, (o.resp hh).receipt = none →
      ∀ rs : List Receipt, (getBlockReceiptsByHashes o blockHash txHashes).2 ≠ .ok rs) := by
  have hSucc : ∀ rs : List Receipt,
      (getBlockReceiptsByHashes o blockHash txHashes).2 = .ok rs →
      (getBlockReceiptsByHashes o blockHash txHashes).1 =
        (chunks100 txHashes).map (fun chunk =>
          chunk.map fun hh => { method := "eth_getTransactionReceipt", txHash := hh }) ∧
      rs.map some = txHashes.map fun hh => (o.resp hh).receipt := by
    intro rs hok
    by_cases hle : txHashes.length ≤ rpcRequestBatchSize
    · have hun : getBlockReceiptsByHashes o blockHash txHashes =
          batchGetTransactionReceipt o txHashes := by
        simp [getBlockReceiptsByHashes, hle]
      rw [hun] at hok ⊢
      constructor
      · rw [batchGetTransactionReceipt_trace]
        by_cases h0 : txHashes.length = 0
        · have hnil : txHashes = [] := List.length_eq_zero.mp h0
          subst hnil
          simp [chunks100]
        · rw [if_neg h0]
          have hne : txHashes ≠ [] := fun hh => h0 (by simp [hh])
          rw [chunks100_of_short txHashes hne hle]
          simp
      · exact batchGetTransactionReceipt_ok o txHashes rs hok
    · rcases hloop : receiptChunksLoop o txHashes.length txHashes with ⟨tr, res⟩
      cases res with
      | error e =>
        rw [show (getBlockReceiptsByHashes o blockHash txHashes).2 = .error e from by
          simp [getBlockReceiptsByHashes, hle, hloop]] at hok
        exact Except.noConfusion hok
      | ok ret =>
        cases hf : ret.find? (fun receipt => receipt.blockHash != blockHash) with
        | some receipt =>
          rw [show (getBlockReceiptsByHashes o blockHash txHashes).2 =
              .error (.receiptWrongBlock receipt.transactionHash blockHash) from by
            simp [getBlockReceiptsByHashes, hle, hloop, hf]] at hok
          exact Except.noConfusion hok
        | none =>
          have hwhole : getBlockReceiptsByHashes o blockHash txHashes = (tr, .ok ret) := by
            simp [getBlockReceiptsByHashes, hle, hloop, hf]
          rw [hwhole] at hok
          have h' : Except.ok (ε := GoErr) ret = Except.ok rs := hok
          injection h' with h'
          subst h'
          obtain ⟨htr, hval⟩ :=
            receiptChunksLoop_ok o txHashes.length txHashes (le_refl _) ret (by rw [hloop])
          rw [hloop] at htr
          exact ⟨by rw [hwhole]; exact htr, hval⟩
  refine ⟨⟨chunks100_flatten txHashes.length txHashes (le_refl _),
    fun chunk hc => chunks100_mem txHashes.length txHashes (le_refl _) chunk hc,
    chunks100_length txHashes.length txHashes (le_refl _)⟩, hSucc, ?_⟩
  intro hh hmem hnone rs hok
  obtain ⟨-, hval⟩ := hSucc rs hok
  obtain ⟨i, hi⟩ := List.getElem?_of_mem hmem
  have hcong := congrArg (fun l => l[i]?) hval
  simp only [List.getElem?_map, hi] at hcong
  cases hr : rs[i]? with
  | none => rw [hr] at hcong; simp [hnone] at hcong
  | some r => rw [hr] at hcong; simp [hnone] at hcong

set_option maxRecDepth 100000 in
/-- Witness for C7 on 250 transaction hashes: three batched calls of
sizes 100, 100, 50 and a successful aligned result. -/
theorem getBlockReceiptsByHashes_chunking_witness :
    (getBlockReceiptsByHashes okReceiptOracle 7 hashes250).2 = .ok receipts250 ∧
    ((getBlockReceiptsByHashes okReceiptOracle 7 hashes250).1).map List.length =
      [100, 100, 50] ∧
    receipts250.map some = hashes250.map fun hh => (okReceiptOracle.resp hh).receipt := by
  refine ⟨by rfl, by rfl, ?_⟩
  exact ((getBlockReceiptsByHashes_chunking okReceiptOracle 7 hashes250).2.1
    receipts250 (by rfl)).2

/-! ## C8 -/

theorem insertByLatency_perm (c : EndpointClient) (l : List EndpointClient) :
    (insertByLatency c l).Perm (c :: l) := by
  induction l with
  | nil => simp [insertByLatency]
  | cons d rest ih =>
    simp only [insertByLatency]
    by_cases h : c.latency ≤ d.latency
    · rw [if_pos h]
    · rw [if_neg h]
      exact (ih.cons d).trans (List.Perm.swap c d rest)

theorem sortByLatency_perm (l : List EndpointClient) : (sortByLatency l).Perm l := by
  induction l with
  | nil => simp [sortByLatency]
  | cons c rest ih =>
    simp only [sortByLatency]
    exact (insertByLatency_perm c (sortByLatency rest)).trans (ih.cons c)

theorem insertByLatency_sorted (c : EndpointClient) (l : List EndpointClient)
    (h : l.Pairwise (fun a b => a.latency ≤ b.latency)) :
    (insertByLatency c l).Pairwise (fun a b => a.latency ≤ b.latency) := by
  induction l with
  | nil => simp [insertByLatency]
  | cons d rest ih =>
    simp only [insertByLatency]
    by_cases hcd : c.latency ≤ d.latency
    · rw [if_pos hcd]
      refine List.Pairwise.cons ?_ h
      intro b hb
      rcases List.mem_cons.mp hb with rfl | hb2
      · exact hcd
      · exact le_trans hcd (List.rel_of_pairwise_cons h hb2)
    · rw [if_neg hcd]
      refine List.Pairwise.cons ?_ (ih (List.Pairwise.of_cons h))
      intro b hb
      have hb' : b ∈ c :: rest := (insertByLatency_perm c rest).mem_iff.mp hb
      rcases List.mem_cons.mp hb' with rfl | hb2
      · exact le_of_not_le hcd
      · exact List.rel_of_pairwise_cons h hb2

theorem sortByLatency_sorted (l : List EndpointClient) :
    (sortByLatency l).Pairwise (fun a b => a.latency ≤ b.latency) := by
  induction l with
  | nil => simp [sortByLatency]
  | cons c rest ih =>
    simp only [sortByLatency]
    exact insertByLatency_sorted c _ ih

/-- **C8**: `SetupConnectionPool` keeps exactly the candidates that
connected (silently dropping failures), returns them sorted ascending by
measured latency — strictly ascending when the latencies are pairwise
distinct — and fails with the "no connection established" error exactly
when zero endpoints survive. -/
theorem setupConnectionPool_spec (dialResults : List (Option EndpointClient)) :
    (∀ pool : List EndpointClient, SetupConnectionPool dialResults = .ok pool →
      pool.Perm (dialResults.filterMap id) ∧
      pool.Pairwise (fun a b => a.latency ≤ b.latency) ∧
      ((dialResults.filterMap id).Pairwise (fun a b => a.latency ≠ b.latency) →
        pool.Pairwise (fun a b => a.latency < b.latency))) ∧
    (dialResults.filterMap id ≠ [] →
      ∃ pool, SetupConnectionPool dialResults = .ok pool) ∧
    (SetupConnectionPool dialResults = .error .noConnection ↔
      dialResults.filterMap id = []) := by
  by_cases hpos : (dialResults.filterMap id).length > 0
  · have hok : SetupConnectionPool dialResults =
        .ok (sortByLatency (dialResults.filterMap id)) := by
      simp [SetupConnectionPool, hpos]
    refine ⟨?_, ?_, ?_⟩
    · intro pool hp
      rw [hok] at hp
      injection hp with hp
      subst hp
      refine ⟨sortByLatency_perm _, sortByLatency_sorted _, ?_⟩
      intro hdist
      have hperm := sortByLatency_perm (dialResults.filterMap id)
      have hne : (sortByLatency (dialResults.filterMap id)).Pairwise
          (fun a b => a.latency ≠ b.latency) :=
        (List.Perm.pairwise_iff (fun hab => Ne.symm hab) hperm).mpr hdist
      have hboth := List.Pairwise.and (sortByLatency_sorted _) hne
      exact hboth.imp (fun hab => lt_of_le_of_ne hab.1 hab.2)
    · intro hne
      exact ⟨_, hok⟩
    · rw [hok]
      constructor
      · intro h; exact Except.noConfusion h
      · intro h; exfalso; rw [h] at hpos; simp at hpos
  · have hnil : dialResults.filterMap id = [] := by
      cases hc : dialResults.filterMap id with
      | nil => rfl
      | cons a l => rw [hc] at hpos; simp at hpos
    have herr : SetupConnectionPool dialResults = .error .noConnection := by
      simp [SetupConnectionPool, hnil]
    refine ⟨?_, ?_, ?_⟩
    · intro pool hp
      rw [herr] at hp
      exact Except.noConfusion hp
    · intro hne
      exact absurd hnil hne
    · rw [herr]
      simp [hnil]

/-- Witness for C8 on three surviving endpoints with distinct latencies
30, 10, 20 (arrival order) plus a candidate set with zero survivors. -/
theorem setupConnectionPool_spec_witness :
    SetupConnectionPool sampleDialResults =
      .ok [{ url := "a", latency := 10 }, { url := "c", latency := 20 },
           { url := "b", latency := 30 }] ∧
    ([{ url := "a", latency := 10 }, { url := "c", latency := 20 },
      { url := "b", latency := 30 }] : List EndpointClient).Pairwise
        (fun a b => a.latency < b.latency) ∧
    SetupConnectionPool [none, none] = .error GoErr.noConnection := by
  refine ⟨by rfl, ?_, ?_⟩
  · exact ((setupConnectionPool_spec sampleDialResults).1
      [{ url := "a", latency := 10 }, { url := "c", latency := 20 },
       { url := "b", latency := 30 }] (by rfl)).2.2 (by decide)
  · exact (setupConnectionPool_spec [none, none]).2.2.mpr rfl

end Ethcore
